import Mathlib

/-!
# Verification of the padthai base-48 codec

Shallow embedding of `pkg/padthai/padthai.go`: a binary-to-text codec that
maps byte pairs to triples of Thai code points (base 48) and a trailing odd
byte to two Buginese code points (one per nibble).

Bytes are modelled as `Nat` values below 256 and strings as lists of Unicode
code points (`Nat`), matching Go's rune-level iteration over strings.
-/

namespace Padthai

/-- `Base` is the radix for the main encoding (48 Thai characters). -/
def Base : Nat := 48

/-- `PadBase` is the number of Buginese characters used for padding. -/
def PadBase : Nat := 16

/-- Start of the Thai character run, U+0E01. -/
def thaiStart : Nat := 0x0E01

/-- End of the Thai character run, U+0E2F. -/
def thaiEnd : Nat := 0x0E2F

/-- The extra Thai character U+0E3F appended after the run. -/
def thaiBaht : Nat := 0x0E3F

/-- Start of the Buginese padding range, U+1A00. -/
def bugineseStart : Nat := 0x1A00

/-- End of the Buginese padding range, U+1A0F. -/
def bugineseEnd : Nat := 0x1A0F

/-- The ordered set of 48 Thai characters used for encoding: the run
`thaiStart..thaiEnd` followed by `thaiBaht`, as built by the package `init`. -/
def ThaiAlphabet : List Nat :=
  (List.range (thaiEnd - thaiStart + 1)).map (fun i => thaiStart + i) ++ [thaiBaht]

/-- The ordered set of 16 Buginese characters used for padding. -/
def BugineseAlphabet : List Nat :=
  (List.range PadBase).map (fun i => bugineseStart + i)

/-- First-index lookup in a list, used to model the `thaiIndex` map.  The Go
map is built by inserting every alphabet entry in order; since the alphabet
has no duplicates, first-index and last-insertion agree. -/
def lookupIdx (r : Nat) : List Nat → Nat → Option Nat
  | [], _ => none
  | x :: xs, i => if x = r then some i else lookupIdx r xs (i + 1)

/-- `thaiIndex` maps a Thai rune to its index in the alphabet (0–47). -/
def thaiIndex (r : Nat) : Option Nat := lookupIdx r ThaiAlphabet 0

/-- `isThai` returns true if `r` is one of the 48 Thai encoding characters. -/
def isThai (r : Nat) : Bool := (thaiIndex r).isSome

/-- `isBuginese` returns true if `r` is in the Buginese padding range
U+1A00–U+1A0F. -/
def isBuginese (r : Nat) : Bool := bugineseStart ≤ r && r ≤ bugineseEnd

/-- One step of the encoder loop: a byte pair as a big-endian 16-bit value,
converted to three base-48 digits, most significant first.  Bytes are below
256, so Go's `uint(b0)<<8 | uint(b1)` is `b0 * 256 + b1`. -/
def encodePair (b0 b1 : Nat) : List Nat :=
  let val := b0 * 256 + b1
  let d2 := val % Base
  let val := val / Base
  let d1 := val % Base
  let d0 := val / Base
  [ThaiAlphabet.getD d0 0, ThaiAlphabet.getD d1 0, ThaiAlphabet.getD d2 0]

/-- The encoder's trailing-byte step: high nibble then low nibble, each as a
Buginese character. -/
def encodeByte (b : Nat) : List Nat :=
  let hi := (b / 16) % 16
  let lo := b % 16
  [BugineseAlphabet.getD hi 0, BugineseAlphabet.getD lo 0]

/-- `Encode` encodes a byte sequence into a padthai code-point sequence:
pairs while two bytes remain, then the Buginese-padded trailing byte. -/
def Encode : List Nat → List Nat
  | [] => []
  | [b] => encodeByte b
  | b0 :: b1 :: rest => encodePair b0 b1 ++ Encode rest

/-- Structured decode errors, one per `fmt.Errorf` site in `Decode`. -/
inductive DecodeError where
  | invalidCharacter (r : Nat) (pos : Nat)
  | invalidLength (n : Nat)
  | valueOutOfRange (v : Nat) (pos : Nat)
  | invalidPadding
  deriving DecidableEq

/-- The whitespace code points skipped by the decoder:
space, newline, carriage return, tab. -/
def isWhitespace (r : Nat) : Bool := r == 32 || r == 10 || r == 13 || r == 9

/-- The decoder's first pass: collect runes, skipping whitespace. -/
def stripWhitespace (s : List Nat) : List Nat :=
  s.filter (fun r => !isWhitespace r)

/-- The decoder's triplet loop over the Thai group, carrying the position `i`
of the current triplet within the whitespace-stripped sequence.  Leftover
chunks shorter than 3 are not visited by the loop (`i+2 < len`). -/
def decodeTriplets : List Nat → Nat → Except DecodeError (List Nat)
  | r0 :: r1 :: r2 :: rest, i =>
    match thaiIndex r0, thaiIndex r1, thaiIndex r2 with
    | some d0, some d1, some d2 =>
      let val := d0 * Base * Base + d1 * Base + d2
      if 0xFFFF < val then .error (.valueOutOfRange val i)
      else
        match decodeTriplets rest (i + 3) with
        | .error e => .error e
        | .ok out => .ok ((val / 256) % 256 :: val % 256 :: out)
    | none, _, _ => .error (.invalidCharacter r0 i)
    | some _, none, _ => .error (.invalidCharacter r1 (i + 1))
    | some _, some _, none => .error (.invalidCharacter r2 (i + 2))
  | _, _ => .ok []

/-- The decoder's trailing-padding detection: 2 when the working sequence has
at least two elements and its last two are Buginese, else 0. -/
def trailingBuginese (runes : List Nat) : Nat :=
  if 2 ≤ runes.length && isBuginese (runes.getD (runes.length - 1) 0)
      && isBuginese (runes.getD (runes.length - 2) 0) then 2 else 0

/-- The body of `Decode` after whitespace stripping, on a nonempty working
sequence: split off the padding pair, check the Thai group length, decode
triplets, then decode the Buginese padding.  The nibble values are reduced
mod 256 to model Go's `byte(...)` conversion; under the Buginese guard the
subtraction never exceeds 15. -/
def decodeCore (runes : List Nat) : Except DecodeError (List Nat) :=
  let t := trailingBuginese runes
  let thaiRunes := runes.take (runes.length - t)
  let bugRunes := runes.drop (runes.length - t)
  if thaiRunes.length % 3 ≠ 0 then .error (.invalidLength thaiRunes.length)
  else
    match decodeTriplets thaiRunes 0 with
    | .error e => .error e
    | .ok out =>
      if t = 2 then
        let hi := (bugRunes.getD 0 0 - bugineseStart) % 256
        let lo := (bugRunes.getD 1 0 - bugineseStart) % 256
        if 0x0F < hi || 0x0F < lo then .error .invalidPadding
        else .ok (out ++ [hi * 16 + lo])
      else .ok out

/-- `Decode` decodes a padthai code-point sequence back into bytes. -/
def Decode (s : List Nat) : Except DecodeError (List Nat) :=
  let runes := stripWhitespace s
  if runes.length = 0 then .ok []
  else decodeCore runes

/-- The decoder's Step 3 on its own: length check then triplet loop.  Used to
state how `Decode` treats the primary group. -/
def decodePrimary (l : List Nat) : Except DecodeError (List Nat) :=
  if l.length % 3 ≠ 0 then .error (.invalidLength l.length) else decodeTriplets l 0

/-! ## Concrete alphabet facts, settled by evaluation -/

theorem thaiIndex_getD : ∀ d < 48, thaiIndex (ThaiAlphabet.getD d 0) = some d := by decide

theorem thaiGetD_not_buginese : ∀ d < 48, isBuginese (ThaiAlphabet.getD d 0) = false := by
  decide

theorem thaiGetD_not_ws : ∀ d < 48, isWhitespace (ThaiAlphabet.getD d 0) = false := by decide

theorem thaiGetD_mem : ∀ d < 48, ThaiAlphabet.getD d 0 ∈ ThaiAlphabet := by decide

theorem bugGetD_eq : ∀ i < 16, BugineseAlphabet.getD i 0 = bugineseStart + i := by decide

theorem bug_thaiIndex_none : ∀ i < 16, thaiIndex (bugineseStart + i) = none := by decide

theorem bug_not_ws : ∀ i < 16, isWhitespace (bugineseStart + i) = false := by decide

theorem bug_isBuginese : ∀ i < 16, isBuginese (bugineseStart + i) = true := by decide

theorem bugGetD_mem : ∀ i < 16, BugineseAlphabet.getD i 0 ∈ BugineseAlphabet := by decide

/-! ## Symbolic facts about classification -/

theorem isBuginese_iff (r : Nat) :
    isBuginese r = true ↔ bugineseStart ≤ r ∧ r ≤ bugineseEnd := by
  simp [isBuginese, Bool.and_eq_true, decide_eq_true_eq]

theorem isBuginese_nibble_le (r : Nat) (h : isBuginese r = true) :
    r - bugineseStart ≤ 15 := by
  rcases (isBuginese_iff r).mp h with ⟨h1, h2⟩
  simp [bugineseStart, bugineseEnd] at h1 h2 ⊢
  omega

theorem thaiIndex_of_buginese (r : Nat) (h : isBuginese r = true) : thaiIndex r = none := by
  rcases (isBuginese_iff r).mp h with ⟨h1, h2⟩
  have hr : r = bugineseStart + (r - bugineseStart) := by omega
  rw [hr]
  refine bug_thaiIndex_none _ ?_
  simp [bugineseStart, bugineseEnd] at h1 h2 ⊢
  omega

/-! ## The triplet loop -/

theorem decodeTriplets_encodePair (b0 b1 : Nat) (h0 : b0 < 256) (h1 : b1 < 256)
    (rest : List Nat) (i : Nat) :
    decodeTriplets (encodePair b0 b1 ++ rest) i =
      match decodeTriplets rest (i + 3) with
      | .error e => .error e
      | .ok out => .ok (b0 :: b1 :: out) := by
  have hd0 : (b0 * 256 + b1) / Base / Base < 48 := by simp only [Base]; omega
  have hd1 : (b0 * 256 + b1) / Base % Base < 48 := by simp only [Base]; omega
  have hd2 : (b0 * 256 + b1) % Base < 48 := by simp only [Base]; omega
  have hconc : encodePair b0 b1 ++ rest =
      ThaiAlphabet.getD ((b0 * 256 + b1) / Base / Base) 0 ::
      ThaiAlphabet.getD ((b0 * 256 + b1) / Base % Base) 0 ::
      ThaiAlphabet.getD ((b0 * 256 + b1) % Base) 0 :: rest := rfl
  rw [hconc]
  simp only [decodeTriplets, thaiIndex_getD _ hd0, thaiIndex_getD _ hd1, thaiIndex_getD _ hd2]
  have hval : (b0 * 256 + b1) / Base / Base * Base * Base
      + (b0 * 256 + b1) / Base % Base * Base + (b0 * 256 + b1) % Base = b0 * 256 + b1 := by
    simp only [Base]; omega
  rw [hval]
  have hle : ¬ 0xFFFF < b0 * 256 + b1 := by omega
  rw [if_neg hle]
  have hb0 : (b0 * 256 + b1) / 256 % 256 = b0 := by omega
  have hb1 : (b0 * 256 + b1) % 256 = b1 := by omega
  rw [hb0, hb1]

theorem decodeTriplets_ok_shift : ∀ (l : List Nat) (i j : Nat) (out : List Nat),
    decodeTriplets l i = .ok out → decodeTriplets l j = .ok out
  | r0 :: r1 :: r2 :: rest, i, j, out, h => by
    rcases hi0 : thaiIndex r0 with _ | d0 <;>
      rcases hi1 : thaiIndex r1 with _ | d1 <;>
        rcases hi2 : thaiIndex r2 with _ | d2 <;>
          simp only [decodeTriplets, hi0, hi1, hi2] at h ⊢ <;>
            try exact absurd h (by simp)
    split at h
    · exact absurd h (by simp)
    · next hle =>
      rw [if_neg hle]
      split at h
      · exact absurd h (by simp)
      · next out' hrec =>
        rw [decodeTriplets_ok_shift rest (i + 3) (j + 3) out' hrec]
        exact h
  | [], _, j, out, h => by simpa [decodeTriplets] using h
  | [r0], _, j, out, h => by simpa [decodeTriplets] using h
  | [r0, r1], _, j, out, h => by simpa [decodeTriplets] using h

theorem decodeTriplets_error_kinds : ∀ (l : List Nat) (i : Nat) (e : DecodeError),
    decodeTriplets l i = .error e →
    (∃ r p, e = .invalidCharacter r p) ∨ (∃ v p, e = .valueOutOfRange v p)
  | r0 :: r1 :: r2 :: rest, i, e, h => by
    rcases hi0 : thaiIndex r0 with _ | d0 <;>
      rcases hi1 : thaiIndex r1 with _ | d1 <;>
        rcases hi2 : thaiIndex r2 with _ | d2 <;>
          simp only [decodeTriplets, hi0, hi1, hi2] at h <;>
            try (cases h; exact Or.inl ⟨_, _, rfl⟩)
    split at h
    · cases h; exact Or.inr ⟨_, _, rfl⟩
    · split at h
      · cases h
        exact decodeTriplets_error_kinds rest (i + 3) _ (by assumption)
      · exact absurd h (by simp)
  | [], _, _, h => by simp [decodeTriplets] at h
  | [r0], _, _, h => by simp [decodeTriplets] at h
  | [r0, r1], _, _, h => by simp [decodeTriplets] at h

theorem decodeTriplets_ok_thai : ∀ (l : List Nat) (i : Nat) (out : List Nat),
    decodeTriplets l i = .ok out → l.length % 3 = 0 → ∀ r ∈ l, isThai r = true
  | r0 :: r1 :: r2 :: rest, i, out, h, hlen, r, hr => by
    rcases hi0 : thaiIndex r0 with _ | d0 <;>
      rcases hi1 : thaiIndex r1 with _ | d1 <;>
        rcases hi2 : thaiIndex r2 with _ | d2 <;>
          simp only [decodeTriplets, hi0, hi1, hi2] at h <;>
            try exact absurd h (by simp)
    split at h
    · exact absurd h (by simp)
    · split at h
      · exact absurd h (by simp)
      · next out' hrec =>
        have hlen' : rest.length % 3 = 0 := by
          simp only [List.length_cons] at hlen; omega
        simp only [List.mem_cons] at hr
        rcases hr with rfl | rfl | rfl | hr
        · simp [isThai, hi0]
        · simp [isThai, hi1]
        · simp [isThai, hi2]
        · exact decodeTriplets_ok_thai rest (i + 3) out' hrec hlen' r hr
  | [], _, _, _, _, r, hr => by simp at hr
  | [r0], _, _, _, hlen, r, hr => by simp at hlen
  | [r0, r1], _, _, _, hlen, r, hr => by simp at hlen

/-! ## Shape of the encoder output -/

theorem encodePair_eq (b0 b1 : Nat) :
    encodePair b0 b1 =
      [ThaiAlphabet.getD ((b0 * 256 + b1) / Base / Base) 0,
       ThaiAlphabet.getD ((b0 * 256 + b1) / Base % Base) 0,
       ThaiAlphabet.getD ((b0 * 256 + b1) % Base) 0] := rfl

theorem encodeByte_eq (b : Nat) :
    encodeByte b =
      [BugineseAlphabet.getD (b / 16 % 16) 0, BugineseAlphabet.getD (b % 16) 0] := rfl

theorem encode_length_ge_two : ∀ (b : List Nat), b ≠ [] → 2 ≤ (Encode b).length
  | [], h => absurd rfl h
  | [x], _ => by simp [Encode, encodeByte]
  | b0 :: b1 :: rest, _ => by
    simp only [Encode, List.length_append, encodePair_eq, List.length_cons]
    omega

theorem encode_not_ws : ∀ (b : List Nat), (∀ x ∈ b, x < 256) →
    ∀ r ∈ Encode b, isWhitespace r = false
  | [], _, r, hr => by simp [Encode] at hr
  | [x], hb, r, hr => by
    have hx : x < 256 := hb x (by simp)
    have hhi : x / 16 % 16 < 16 := by omega
    have hlo : x % 16 < 16 := by omega
    simp only [Encode, encodeByte_eq, List.mem_cons, List.not_mem_nil, or_false] at hr
    rcases hr with rfl | rfl
    · rw [bugGetD_eq _ hhi]; exact bug_not_ws _ hhi
    · rw [bugGetD_eq _ hlo]; exact bug_not_ws _ hlo
  | b0 :: b1 :: rest, hb, r, hr => by
    have h0 : b0 < 256 := hb b0 (by simp)
    have h1 : b1 < 256 := hb b1 (by simp)
    simp only [Encode, List.mem_append] at hr
    rcases hr with hr | hr
    · have hd0 : (b0 * 256 + b1) / Base / Base < 48 := by simp only [Base]; omega
      have hd1 : (b0 * 256 + b1) / Base % Base < 48 := by simp only [Base]; omega
      have hd2 : (b0 * 256 + b1) % Base < 48 := by simp only [Base]; omega
      simp only [encodePair_eq, List.mem_cons, List.not_mem_nil, or_false] at hr
      rcases hr with rfl | rfl | rfl
      · exact thaiGetD_not_ws _ hd0
      · exact thaiGetD_not_ws _ hd1
      · exact thaiGetD_not_ws _ hd2
    · exact encode_not_ws rest (fun x hx => hb x (by simp [hx])) r hr

theorem stripWhitespace_encode (b : List Nat) (hb : ∀ x ∈ b, x < 256) :
    stripWhitespace (Encode b) = Encode b := by
  unfold stripWhitespace
  rw [List.filter_eq_self]
  intro a ha
  simp [encode_not_ws b hb a ha]

/-! ## Trailing-padding detection -/

theorem trailingBuginese_cases (runes : List Nat) :
    trailingBuginese runes = 0 ∨ trailingBuginese runes = 2 := by
  unfold trailingBuginese; split <;> simp

theorem trailingBuginese_of_cond (runes : List Nat) (h2 : 2 ≤ runes.length)
    (hb1 : isBuginese (runes.getD (runes.length - 1) 0) = true)
    (hb2 : isBuginese (runes.getD (runes.length - 2) 0) = true) :
    trailingBuginese runes = 2 := by
  unfold trailingBuginese
  rw [if_pos]
  simp only [Bool.and_eq_true, decide_eq_true_eq]
  exact ⟨⟨h2, hb1⟩, hb2⟩

theorem cond_of_trailingBuginese_two (runes : List Nat) (h : trailingBuginese runes = 2) :
    2 ≤ runes.length ∧ isBuginese (runes.getD (runes.length - 1) 0) = true ∧
      isBuginese (runes.getD (runes.length - 2) 0) = true := by
  unfold trailingBuginese at h
  split at h
  · next hcond =>
    simp only [Bool.and_eq_true, decide_eq_true_eq] at hcond
    exact ⟨hcond.1.1, hcond.1.2, hcond.2⟩
  · simp at h

theorem trailingBuginese_eq_zero (runes : List Nat)
    (h : ¬(2 ≤ runes.length ∧ isBuginese (runes.getD (runes.length - 1) 0) = true ∧
      isBuginese (runes.getD (runes.length - 2) 0) = true)) :
    trailingBuginese runes = 0 := by
  rcases trailingBuginese_cases runes with h0 | h2
  · exact h0
  · exact absurd (cond_of_trailingBuginese_two runes h2) h

/-! ## The decoder body -/

theorem decodeCore_nopad (runes : List Nat) (ht : trailingBuginese runes = 0) :
    decodeCore runes = decodePrimary runes := by
  simp only [decodeCore, decodePrimary, ht, Nat.sub_zero, List.take_length]
  split
  · rfl
  · split <;> rename_i heq
    · exact heq.symm
    · rw [if_neg (by omega)]
      exact heq.symm

theorem decodeCore_pad (runes : List Nat) (h2 : 2 ≤ runes.length)
    (hb1 : isBuginese (runes.getD (runes.length - 1) 0) = true)
    (hb2 : isBuginese (runes.getD (runes.length - 2) 0) = true) :
    decodeCore runes =
      match decodePrimary (runes.take (runes.length - 2)) with
      | .error e => .error e
      | .ok out => .ok (out ++
          [(runes.getD (runes.length - 2) 0 - bugineseStart) * 16 +
           (runes.getD (runes.length - 1) 0 - bugineseStart)]) := by
  have ht := trailingBuginese_of_cond runes h2 hb1 hb2
  have hlt : (runes.take (runes.length - 2)).length = runes.length - 2 := by
    simp only [List.length_take]; omega
  have hd0 : (runes.drop (runes.length - 2)).getD 0 0 = runes.getD (runes.length - 2) 0 := by
    simp [List.getD_eq_getElem?_getD, List.getElem?_drop]
  have hd1 : (runes.drop (runes.length - 2)).getD 1 0 = runes.getD (runes.length - 1) 0 := by
    simp only [List.getD_eq_getElem?_getD, List.getElem?_drop]
    congr 2
    omega
  simp only [decodeCore, decodePrimary, ht]
  rw [hlt, hd0, hd1]
  split
  · rfl
  · split
    · rfl
    · rw [if_pos trivial]
      have hhi : runes.getD (runes.length - 2) 0 - bugineseStart ≤ 15 :=
        isBuginese_nibble_le _ hb2
      have hlo : runes.getD (runes.length - 1) 0 - bugineseStart ≤ 15 :=
        isBuginese_nibble_le _ hb1
      rw [Nat.mod_eq_of_lt (by omega), Nat.mod_eq_of_lt (by omega)]
      rw [if_neg (by simp only [Bool.or_eq_true, decide_eq_true_eq]; omega)]

theorem encodePair_append (b0 b1 : Nat) (X : List Nat) :
    encodePair b0 b1 ++ X =
      ThaiAlphabet.getD ((b0 * 256 + b1) / Base / Base) 0 ::
      ThaiAlphabet.getD ((b0 * 256 + b1) / Base % Base) 0 ::
      ThaiAlphabet.getD ((b0 * 256 + b1) % Base) 0 :: X := rfl

theorem decodePrimary_cons_pair (b0 b1 : Nat) (h0 : b0 < 256) (h1 : b1 < 256)
    (l out : List Nat) (h : decodePrimary l = .ok out) :
    decodePrimary (encodePair b0 b1 ++ l) = .ok (b0 :: b1 :: out) := by
  unfold decodePrimary at h ⊢
  split at h
  · exact absurd h (by simp)
  · next hlen =>
    have hlen3 : (encodePair b0 b1 ++ l).length = l.length + 3 := by
      rw [encodePair_append]; simp
    rw [hlen3, if_neg (by omega), decodeTriplets_encodePair b0 b1 h0 h1 l 0,
      decodeTriplets_ok_shift l 0 (0 + 3) out h]

theorem decodeCore_cons_pair (b0 b1 : Nat) (h0 : b0 < 256) (h1 : b1 < 256)
    (R : List Nat) (hR : 2 ≤ R.length) (out : List Nat)
    (h : decodeCore R = .ok out) :
    decodeCore (encodePair b0 b1 ++ R) = .ok (b0 :: b1 :: out) := by
  have hpl : (encodePair b0 b1).length = 3 := rfl
  have hlen : (encodePair b0 b1 ++ R).length = R.length + 3 := by
    rw [encodePair_append]; simp
  have e1 : (encodePair b0 b1 ++ R).getD ((encodePair b0 b1 ++ R).length - 1) 0
      = R.getD (R.length - 1) 0 := by
    rw [List.getD_eq_getElem?_getD, List.getD_eq_getElem?_getD, hlen,
      List.getElem?_append_right (by rw [hpl]; omega), hpl]
    have hidx : R.length + 3 - 1 - 3 = R.length - 1 := by omega
    rw [hidx]
  have e2 : (encodePair b0 b1 ++ R).getD ((encodePair b0 b1 ++ R).length - 2) 0
      = R.getD (R.length - 2) 0 := by
    rw [List.getD_eq_getElem?_getD, List.getD_eq_getElem?_getD, hlen,
      List.getElem?_append_right (by rw [hpl]; omega), hpl]
    have hidx : R.length + 3 - 2 - 3 = R.length - 2 := by omega
    rw [hidx]
  have htr : trailingBuginese (encodePair b0 b1 ++ R) = trailingBuginese R := by
    rcases trailingBuginese_cases R with hz | h2'
    · rw [hz]
      refine trailingBuginese_eq_zero _ ?_
      rintro ⟨-, hc1, hc2⟩
      rw [e1] at hc1
      rw [e2] at hc2
      rw [trailingBuginese_of_cond R hR hc1 hc2] at hz
      omega
    · rw [h2']
      obtain ⟨-, hc1, hc2⟩ := cond_of_trailingBuginese_two R h2'
      exact trailingBuginese_of_cond _ (by rw [hlen]; omega)
        (by rw [e1]; exact hc1) (by rw [e2]; exact hc2)
  rcases trailingBuginese_cases R with hz | h2'
  · have hdp : decodePrimary R = .ok out := by
      rw [← decodeCore_nopad R hz]; exact h
    rw [decodeCore_nopad _ (htr.trans hz)]
    exact decodePrimary_cons_pair b0 b1 h0 h1 R out hdp
  · obtain ⟨-, hc1, hc2⟩ := cond_of_trailingBuginese_two R h2'
    rw [decodeCore_pad R hR hc1 hc2] at h
    have hb1' : isBuginese ((encodePair b0 b1 ++ R).getD
        ((encodePair b0 b1 ++ R).length - 1) 0) = true := by rw [e1]; exact hc1
    have hb2' : isBuginese ((encodePair b0 b1 ++ R).getD
        ((encodePair b0 b1 ++ R).length - 2) 0) = true := by rw [e2]; exact hc2
    rw [decodeCore_pad _ (by rw [hlen]; omega) hb1' hb2']
    have htake : (encodePair b0 b1 ++ R).take ((encodePair b0 b1 ++ R).length - 2)
        = encodePair b0 b1 ++ R.take (R.length - 2) := by
      rw [hlen, encodePair_append, encodePair_append]
      rw [show R.length + 3 - 2 = R.length - 2 + 1 + 1 + 1 by omega]
      simp [List.take_succ_cons]
    rw [htake, e1, e2]
    split at h
    · exact absurd h (by simp)
    · rename_i out0 hdp0
      rw [decodePrimary_cons_pair b0 b1 h0 h1 _ out0 hdp0]
      injection h with h'
      subst h'
      simp

theorem decodeCore_two_bug (r0 r1 : Nat) (hb0 : isBuginese r0 = true)
    (hb1 : isBuginese r1 = true) :
    decodeCore [r0, r1] = .ok [(r0 - bugineseStart) * 16 + (r1 - bugineseStart)] := by
  have g1 : ([r0, r1] : List Nat).getD (([r0, r1] : List Nat).length - 1) 0 = r1 := rfl
  have g0 : ([r0, r1] : List Nat).getD (([r0, r1] : List Nat).length - 2) 0 = r0 := rfl
  rw [decodeCore_pad [r0, r1] (by simp) (by rw [g1]; exact hb1) (by rw [g0]; exact hb0)]
  rw [g0, g1]
  have hdp : decodePrimary (([r0, r1] : List Nat).take (([r0, r1] : List Nat).length - 2))
      = .ok [] := rfl
  rw [hdp]
  rfl

theorem decodeCore_encode : ∀ (b : List Nat), (∀ x ∈ b, x < 256) → b ≠ [] →
    decodeCore (Encode b) = .ok b
  | [], _, hne => absurd rfl hne
  | [x], hb, _ => by
    have hx : x < 256 := hb x (by simp)
    have hhi : x / 16 % 16 < 16 := by omega
    have hlo : x % 16 < 16 := by omega
    have hE : Encode [x] = [bugineseStart + x / 16 % 16, bugineseStart + x % 16] := by
      simp only [Encode, encodeByte_eq, bugGetD_eq _ hhi, bugGetD_eq _ hlo]
    rw [hE, decodeCore_two_bug _ _ (bug_isBuginese _ hhi) (bug_isBuginese _ hlo)]
    simp only [Nat.add_sub_cancel_left]
    rw [show x / 16 % 16 * 16 + x % 16 = x by omega]
  | [b0, b1], hb, _ => by
    have h0 : b0 < 256 := hb _ (by simp)
    have h1 : b1 < 256 := hb _ (by simp)
    have hd2 : (b0 * 256 + b1) % Base < 48 := by simp only [Base]; omega
    show decodeCore (encodePair b0 b1 ++ ([] : List Nat)) = .ok [b0, b1]
    have hg : (encodePair b0 b1 ++ ([] : List Nat)).getD
        ((encodePair b0 b1 ++ ([] : List Nat)).length - 1) 0
        = ThaiAlphabet.getD ((b0 * 256 + b1) % Base) 0 := rfl
    have htz := trailingBuginese_eq_zero (encodePair b0 b1 ++ []) (by
      rintro ⟨-, hc1, -⟩
      rw [hg, thaiGetD_not_buginese _ hd2] at hc1
      cases hc1)
    rw [decodeCore_nopad _ htz]
    unfold decodePrimary
    rw [if_neg (by rw [encodePair_append]; simp)]
    rw [decodeTriplets_encodePair b0 b1 h0 h1 [] 0]
    rfl
  | b0 :: b1 :: c :: rest, hb, _ => by
    have h0 : b0 < 256 := hb _ (by simp)
    have h1 : b1 < 256 := hb _ (by simp)
    have hsub : ∀ x ∈ c :: rest, x < 256 := fun x hx => hb x (by simp [hx])
    have hrec := decodeCore_encode (c :: rest) hsub (by simp)
    have hR2 := encode_length_ge_two (c :: rest) (by simp)
    show decodeCore (encodePair b0 b1 ++ Encode (c :: rest)) = .ok (b0 :: b1 :: c :: rest)
    exact decodeCore_cons_pair b0 b1 h0 h1 _ hR2 _ hrec

/-! ## Expansion shape of the encoder -/

theorem encode_even : ∀ (b : List Nat), (∀ x ∈ b, x < 256) → b.length % 2 = 0 →
    (Encode b).length = b.length / 2 * 3 ∧ ∀ r ∈ Encode b, r ∈ ThaiAlphabet
  | [], _, _ => ⟨rfl, by simp [Encode]⟩
  | [x], _, hpar => by simp at hpar
  | b0 :: b1 :: rest, hb, hpar => by
    have h0 : b0 < 256 := hb _ (by simp)
    have h1 : b1 < 256 := hb _ (by simp)
    have hd0 : (b0 * 256 + b1) / Base / Base < 48 := by simp only [Base]; omega
    have hd1 : (b0 * 256 + b1) / Base % Base < 48 := by simp only [Base]; omega
    have hd2 : (b0 * 256 + b1) % Base < 48 := by simp only [Base]; omega
    have hpar' : rest.length % 2 = 0 := by simp only [List.length_cons] at hpar; omega
    obtain ⟨ihlen, ihmem⟩ := encode_even rest (fun x hx => hb x (by simp [hx])) hpar'
    constructor
    · show (encodePair b0 b1 ++ Encode rest).length = (b0 :: b1 :: rest).length / 2 * 3
      have h3 : (encodePair b0 b1).length = 3 := rfl
      rw [List.length_append, h3, ihlen]
      simp only [List.length_cons]
      omega
    · intro r hr
      have hr' : r ∈ encodePair b0 b1 ++ Encode rest := hr
      rw [List.mem_append] at hr'
      rcases hr' with hr' | hr'
      · rw [encodePair_eq] at hr'
        simp only [List.mem_cons, List.not_mem_nil, or_false] at hr'
        rcases hr' with rfl | rfl | rfl
        · exact thaiGetD_mem _ hd0
        · exact thaiGetD_mem _ hd1
        · exact thaiGetD_mem _ hd2
      · exact ihmem r hr'

theorem encode_odd : ∀ (b : List Nat), (∀ x ∈ b, x < 256) → b.length % 2 = 1 →
    (Encode b).length = (b.length - 1) / 2 * 3 + 2 ∧
    ∃ T, (∀ r ∈ T, r ∈ ThaiAlphabet) ∧
      Encode b = T ++ [BugineseAlphabet.getD (b.getLastD 0 / 16) 0,
                       BugineseAlphabet.getD (b.getLastD 0 % 16) 0]
  | [], _, hpar => by simp at hpar
  | [x], hb, _ => by
    have hx : x < 256 := hb _ (by simp)
    constructor
    · simp [Encode, encodeByte_eq]
    · refine ⟨[], by simp, ?_⟩
      show encodeByte x = _
      rw [encodeByte_eq, List.nil_append]
      have hlast : ([x] : List Nat).getLastD 0 = x := rfl
      rw [hlast, show x / 16 % 16 = x / 16 by omega]
  | b0 :: b1 :: rest, hb, hpar => by
    have hpar' : rest.length % 2 = 1 := by simp only [List.length_cons] at hpar; omega
    have hrest_ne : rest ≠ [] := by
      intro h; rw [h] at hpar'; simp at hpar'
    obtain ⟨ihlen, T, ihmem, ihT⟩ := encode_odd rest (fun x hx => hb x (by simp [hx])) hpar'
    have h0 : b0 < 256 := hb _ (by simp)
    have h1 : b1 < 256 := hb _ (by simp)
    have hd0 : (b0 * 256 + b1) / Base / Base < 48 := by simp only [Base]; omega
    have hd1 : (b0 * 256 + b1) / Base % Base < 48 := by simp only [Base]; omega
    have hd2 : (b0 * 256 + b1) % Base < 48 := by simp only [Base]; omega
    have hlast : (b0 :: b1 :: rest).getLastD 0 = rest.getLastD 0 := by
      cases rest with
      | nil => exact absurd rfl hrest_ne
      | cons c cs => simp only [List.getLastD_cons]
    constructor
    · show (encodePair b0 b1 ++ Encode rest).length = ((b0 :: b1 :: rest).length - 1) / 2 * 3 + 2
      have h3 : (encodePair b0 b1).length = 3 := rfl
      rw [List.length_append, h3, ihlen]
      simp only [List.length_cons]
      omega
    · refine ⟨encodePair b0 b1 ++ T, ?_, ?_⟩
      · intro r hr
        rw [List.mem_append] at hr
        rcases hr with hr | hr
        · rw [encodePair_eq] at hr
          simp only [List.mem_cons, List.not_mem_nil, or_false] at hr
          rcases hr with rfl | rfl | rfl
          · exact thaiGetD_mem _ hd0
          · exact thaiGetD_mem _ hd1
          · exact thaiGetD_mem _ hd2
        · exact ihmem r hr
      · show encodePair b0 b1 ++ Encode rest = _
        rw [ihT, hlast, List.append_assoc]

/-! ## Claim theorems -/

/-- C1: for every byte sequence `b` (all entries below 256),
`Decode (Encode b)` returns `b` with no error. -/
theorem decode_encode_roundtrip (b : List Nat) (hb : ∀ x ∈ b, x < 256) :
    Decode (Encode b) = .ok b := by
  by_cases hne : b = []
  · subst hne; rfl
  · have hs := stripWhitespace_encode b hb
    have h2 := encode_length_ge_two b hne
    simp only [Decode, hs]
    rw [if_neg (by omega), decodeCore_encode b hb hne]

/-- Witness for C1 at a concrete input. -/
theorem decode_encode_roundtrip_witness :
    Decode (Encode [0, 1, 2, 255, 77]) = .ok [0, 1, 2, 255, 77] :=
  decode_encode_roundtrip [0, 1, 2, 255, 77] (by decide)

/-- C2: each byte pair `(b0, b1)`, read big-endian as `v = b0 * 256 + b1`,
is emitted as the three Primary Alphabet code points at indices
`d0, d1, d2`, most significant first, with `v = d0*48*48 + d1*48 + d2` and
every digit below 48. -/
theorem encode_pair_digits (b0 b1 : Nat) (rest : List Nat)
    (h0 : b0 < 256) (h1 : b1 < 256) :
    ∃ d0 d1 d2, d0 < Base ∧ d1 < Base ∧ d2 < Base ∧
      b0 * 256 + b1 = d0 * (Base * Base) + d1 * Base + d2 ∧
      Encode (b0 :: b1 :: rest) =
        [ThaiAlphabet.getD d0 0, ThaiAlphabet.getD d1 0, ThaiAlphabet.getD d2 0]
          ++ Encode rest ∧
      ThaiAlphabet.getD d0 0 ∈ ThaiAlphabet ∧
      ThaiAlphabet.getD d1 0 ∈ ThaiAlphabet ∧
      ThaiAlphabet.getD d2 0 ∈ ThaiAlphabet := by
  have hd0 : (b0 * 256 + b1) / Base / Base < 48 := by simp only [Base]; omega
  have hd1 : (b0 * 256 + b1) / Base % Base < 48 := by simp only [Base]; omega
  have hd2 : (b0 * 256 + b1) % Base < 48 := by simp only [Base]; omega
  refine ⟨(b0 * 256 + b1) / Base / Base, (b0 * 256 + b1) / Base % Base,
    (b0 * 256 + b1) % Base, hd0, hd1, hd2, by simp only [Base]; omega, rfl,
    thaiGetD_mem _ hd0, thaiGetD_mem _ hd1, thaiGetD_mem _ hd2⟩

/-- Witness for C2 at a concrete pair. -/
theorem encode_pair_digits_witness :
    ∃ d0 d1 d2, d0 < Base ∧ d1 < Base ∧ d2 < Base ∧
      0 * 256 + 1 = d0 * (Base * Base) + d1 * Base + d2 ∧
      Encode (0 :: 1 :: []) =
        [ThaiAlphabet.getD d0 0, ThaiAlphabet.getD d1 0, ThaiAlphabet.getD d2 0]
          ++ Encode [] ∧
      ThaiAlphabet.getD d0 0 ∈ ThaiAlphabet ∧
      ThaiAlphabet.getD d1 0 ∈ ThaiAlphabet ∧
      ThaiAlphabet.getD d2 0 ∈ ThaiAlphabet :=
  encode_pair_digits 0 1 [] (by omega) (by omega)

/-- C3: even-length input of `n` bytes encodes to exactly `(n/2)*3` Primary
Alphabet code points; odd-length input encodes to `((n-1)/2)*3 + 2` code
points, the leading ones Primary and the final two the Padding Alphabet
code points at the high and low nibble of the trailing byte. -/
theorem encode_expansion (b : List Nat) (hb : ∀ x ∈ b, x < 256) :
    (b.length % 2 = 0 →
      (Encode b).length = b.length / 2 * 3 ∧ ∀ r ∈ Encode b, r ∈ ThaiAlphabet) ∧
    (b.length % 2 = 1 →
      (Encode b).length = (b.length - 1) / 2 * 3 + 2 ∧
      ∃ T, (∀ r ∈ T, r ∈ ThaiAlphabet) ∧
        Encode b = T ++ [BugineseAlphabet.getD (b.getLastD 0 / 16) 0,
                         BugineseAlphabet.getD (b.getLastD 0 % 16) 0] ∧
        BugineseAlphabet.getD (b.getLastD 0 / 16) 0 ∈ BugineseAlphabet ∧
        BugineseAlphabet.getD (b.getLastD 0 % 16) 0 ∈ BugineseAlphabet) := by
  constructor
  · exact fun hpar => encode_even b hb hpar
  · intro hpar
    obtain ⟨hlen, T, hmem, hT⟩ := encode_odd b hb hpar
    have hxlt : b.getLastD 0 < 256 := by
      have hm := List.getLastD_mem_cons b 0
      rcases List.mem_cons.mp hm with h | h
      · omega
      · exact hb _ h
    exact ⟨hlen, T, hmem, hT, bugGetD_mem _ (by omega), bugGetD_mem _ (by omega)⟩

/-- Witness for C3 at concrete even and odd inputs. -/
theorem encode_expansion_witness :
    ((Encode [10, 20]).length = 3 ∧ ∀ r ∈ Encode [10, 20], r ∈ ThaiAlphabet) ∧
    ((Encode [10, 20, 30]).length = 5 ∧
      ∃ T, (∀ r ∈ T, r ∈ ThaiAlphabet) ∧
        Encode [10, 20, 30] = T ++ [BugineseAlphabet.getD (30 / 16) 0,
                                    BugineseAlphabet.getD (30 % 16) 0] ∧
        BugineseAlphabet.getD (30 / 16) 0 ∈ BugineseAlphabet ∧
        BugineseAlphabet.getD (30 % 16) 0 ∈ BugineseAlphabet) := by
  constructor
  · exact (encode_expansion [10, 20] (by decide)).1 (by decide)
  · exact (encode_expansion [10, 20, 30] (by decide)).2 (by decide)

/-- Insertion of whitespace code points at arbitrary positions:
`WsInsert t u` holds when `u` is obtained from `t` by inserting zero or more
whitespace code points (space, tab, newline, carriage return). -/
inductive WsInsert : List Nat → List Nat → Prop where
  | nil : WsInsert [] []
  | keep (r : Nat) {t u : List Nat} : WsInsert t u → WsInsert (r :: t) (r :: u)
  | ws (r : Nat) {t u : List Nat} : isWhitespace r = true → WsInsert t u →
      WsInsert t (r :: u)

theorem wsInsert_strip {t u : List Nat} (h : WsInsert t u) :
    stripWhitespace u = stripWhitespace t := by
  induction h with
  | nil => rfl
  | keep r h ih =>
    unfold stripWhitespace at ih ⊢
    simp only [List.filter_cons, ih]
  | ws r hws h ih =>
    unfold stripWhitespace at ih ⊢
    simp [List.filter_cons, hws, ih]

/-- C4: inserting whitespace code points anywhere in the input leaves the
result of `Decode` unchanged, on success and on failure alike. -/
theorem decode_ws_insensitive (t u : List Nat) (h : WsInsert t u) :
    Decode u = Decode t := by
  have hs := wsInsert_strip h
  simp only [Decode, hs]

/-- Witness for C4 at a concrete insertion. -/
theorem decode_ws_insensitive_witness :
    Decode [32, 3585, 10] = Decode [3585] :=
  decode_ws_insensitive [3585] [32, 3585, 10]
    (.ws 32 rfl (.keep 3585 (.ws 10 rfl .nil)))

/-- C10: an input made only of whitespace code points — including the empty
input — decodes to the empty byte sequence with no error. -/
theorem decode_whitespace_only (s : List Nat) (h : ∀ r ∈ s, isWhitespace r = true) :
    Decode s = .ok [] := by
  have hstrip : stripWhitespace s = [] := by
    unfold stripWhitespace
    rw [List.filter_eq_nil_iff]
    intro a ha
    simp [h a ha]
  simp only [Decode, hstrip]
  rfl

/-- Witness for C10 at a concrete whitespace-only input. -/
theorem decode_whitespace_only_witness : Decode [32, 9, 10, 13] = .ok [] :=
  decode_whitespace_only [32, 9, 10, 13] (by decide)

/-- C8: the Primary Alphabet is the 47-code-point run from `thaiStart`
followed by the extra code point `thaiBaht` outside that run, 48 distinct
members in all; the Padding Alphabet is the 16 consecutive code points from
`bugineseStart`; and the two alphabets are disjoint. -/
theorem alphabet_structure :
    ThaiAlphabet.length = 48 ∧ ThaiAlphabet.Nodup ∧
    (∀ i < 47, ThaiAlphabet.getD i 0 = thaiStart + i) ∧
    ThaiAlphabet.getD 47 0 = thaiBaht ∧
    (∀ i < 47, thaiBaht ≠ thaiStart + i) ∧
    BugineseAlphabet.length = 16 ∧ BugineseAlphabet.Nodup ∧
    (∀ i < 16, BugineseAlphabet.getD i 0 = bugineseStart + i) ∧
    (∀ r ∈ ThaiAlphabet, r ∉ BugineseAlphabet) := by decide

/-- Witness for C8, instantiating its bounded quantifiers. -/
theorem alphabet_structure_witness :
    ThaiAlphabet.getD 5 0 = thaiStart + 5 ∧
    BugineseAlphabet.getD 7 0 = bugineseStart + 7 ∧
    (3600 ∈ ThaiAlphabet → 3600 ∉ BugineseAlphabet) :=
  ⟨alphabet_structure.2.2.1 5 (by decide),
   alphabet_structure.2.2.2.2.2.2.2.1 7 (by decide),
   alphabet_structure.2.2.2.2.2.2.2.2 3600⟩

/-- C7: a triplet of Primary digits `(d0, d1, d2)` combines to
`v = d0*48*48 + d1*48 + d2`; if `v > 65535` the triplet loop fails with
`ValueOutOfRange`, otherwise it emits the bytes `(v >> 8) & 0xFF` then
`v & 0xFF` before the remaining output. -/
theorem decode_triplet_value (d0 d1 d2 : Nat) (rest : List Nat) (i : Nat)
    (h0 : d0 < 48) (h1 : d1 < 48) (h2 : d2 < 48) :
    decodeTriplets (ThaiAlphabet.getD d0 0 :: ThaiAlphabet.getD d1 0 ::
        ThaiAlphabet.getD d2 0 :: rest) i =
      if 65535 < d0 * Base * Base + d1 * Base + d2 then
        .error (.valueOutOfRange (d0 * Base * Base + d1 * Base + d2) i)
      else
        match decodeTriplets rest (i + 3) with
        | .error e => .error e
        | .ok out => .ok ((d0 * Base * Base + d1 * Base + d2) / 256 % 256 ::
            (d0 * Base * Base + d1 * Base + d2) % 256 :: out) := by
  simp only [decodeTriplets, thaiIndex_getD _ h0, thaiIndex_getD _ h1, thaiIndex_getD _ h2]

/-- Witness for C7 at a concrete triplet. -/
theorem decode_triplet_value_witness :
    decodeTriplets [ThaiAlphabet.getD 0 0, ThaiAlphabet.getD 0 0,
      ThaiAlphabet.getD 0 0] 0 = .ok [0, 0] := by
  have h := decode_triplet_value 0 0 0 [] 0 (by omega) (by omega) (by omega)
  exact h.trans rfl

theorem Decode_eq_core (s : List Nat) (h : stripWhitespace s ≠ []) :
    Decode s = decodeCore (stripWhitespace s) := by
  simp only [Decode]
  rw [if_neg (by simpa [List.length_eq_zero] using h)]

theorem Decode_of_strip_nil (s : List Nat) (h : stripWhitespace s = []) :
    Decode s = .ok [] := by
  simp only [Decode, h]
  rfl

theorem decodePrimary_error_kinds (l : List Nat) (e : DecodeError)
    (h : decodePrimary l = .error e) :
    e = .invalidLength l.length ∨ (∃ r p, e = .invalidCharacter r p) ∨
      (∃ v p, e = .valueOutOfRange v p) := by
  unfold decodePrimary at h
  split at h
  · injection h with h'
    exact Or.inl h'.symm
  · exact Or.inr (decodeTriplets_error_kinds l 0 e h)

theorem getD_last_mem (l : List Nat) (k : Nat) (hk : k < l.length) :
    l.getD k 0 ∈ l := by
  rw [List.getD_eq_getElem?_getD, List.getElem?_eq_getElem hk]
  exact List.getElem_mem hk

theorem trailingBuginese_le (runes : List Nat) :
    trailingBuginese runes ≤ runes.length := by
  rcases trailingBuginese_cases runes with h | h
  · rw [h]; omega
  · rw [h]; exact (cond_of_trailingBuginese_two _ h).1

/-- C5: after whitespace filtering, a working sequence whose last two
elements are both Padding members has exactly those two treated as the
padding pair and the rest as the primary group; otherwise the whole working
sequence is the primary group.  In particular a single trailing Padding
character not preceded by another Padding character lands in the primary
group and `Decode` returns an error. -/
theorem padding_pair_selection (s : List Nat) :
    ((2 ≤ (stripWhitespace s).length ∧
      isBuginese ((stripWhitespace s).getD ((stripWhitespace s).length - 1) 0) = true ∧
      isBuginese ((stripWhitespace s).getD ((stripWhitespace s).length - 2) 0) = true) →
      Decode s =
        match decodePrimary ((stripWhitespace s).take ((stripWhitespace s).length - 2)) with
        | .error e => .error e
        | .ok out => .ok (out ++
            [((stripWhitespace s).getD ((stripWhitespace s).length - 2) 0 - bugineseStart)
                * 16 +
             ((stripWhitespace s).getD ((stripWhitespace s).length - 1) 0 - bugineseStart)])) ∧
    (¬(2 ≤ (stripWhitespace s).length ∧
      isBuginese ((stripWhitespace s).getD ((stripWhitespace s).length - 1) 0) = true ∧
      isBuginese ((stripWhitespace s).getD ((stripWhitespace s).length - 2) 0) = true) →
      stripWhitespace s ≠ [] →
      Decode s = decodePrimary (stripWhitespace s)) ∧
    (stripWhitespace s ≠ [] →
      isBuginese ((stripWhitespace s).getD ((stripWhitespace s).length - 1) 0) = true →
      ¬(2 ≤ (stripWhitespace s).length ∧
        isBuginese ((stripWhitespace s).getD ((stripWhitespace s).length - 2) 0) = true) →
      ∃ e, Decode s = .error e) := by
  refine ⟨?_, ?_, ?_⟩
  · rintro ⟨h2, hb1, hb2⟩
    have hne : stripWhitespace s ≠ [] := by
      intro hh; rw [hh] at h2; simp at h2
    rw [Decode_eq_core s hne, decodeCore_pad _ h2 hb1 hb2]
  · intro hc hne
    have ht := trailingBuginese_eq_zero _ hc
    rw [Decode_eq_core s hne, decodeCore_nopad _ ht]
  · intro hne hb1 hc
    have hc' : ¬(2 ≤ (stripWhitespace s).length ∧
        isBuginese ((stripWhitespace s).getD ((stripWhitespace s).length - 1) 0) = true ∧
        isBuginese ((stripWhitespace s).getD ((stripWhitespace s).length - 2) 0) = true) := by
      rintro ⟨a, -, c⟩
      exact hc ⟨a, c⟩
    have ht := trailingBuginese_eq_zero _ hc'
    rw [Decode_eq_core s hne, decodeCore_nopad _ ht]
    unfold decodePrimary
    split
    · exact ⟨_, rfl⟩
    · next hl =>
      cases hdt : decodeTriplets (stripWhitespace s) 0 with
      | error e => exact ⟨e, rfl⟩
      | ok out =>
        exfalso
        have hlenpos : (stripWhitespace s).length ≠ 0 := by
          simpa [List.length_eq_zero] using hne
        have hall := decodeTriplets_ok_thai _ 0 out hdt (by omega)
        have hmem := getD_last_mem (stripWhitespace s)
          ((stripWhitespace s).length - 1) (by omega)
        have hthai := hall _ hmem
        rw [isThai, thaiIndex_of_buginese _ hb1] at hthai
        simp at hthai

/-- Witness for C5 at concrete inputs: a valid padding pair decodes, and a
lone Padding character is rejected. -/
theorem padding_pair_selection_witness :
    Decode [6661, 6662] = .ok [86] ∧ (∃ e, Decode [6656] = .error e) := by
  constructor
  · have h := (padding_pair_selection [6661, 6662]).1 (by decide)
    exact h.trans rfl
  · exact (padding_pair_selection [6656]).2.2 (by decide) (by decide) (by decide)

/-- C6: `Decode` fails with `InvalidLength`, reporting the primary group's
actual size, exactly when that size (working-sequence length minus the
padding pair) is not a multiple of 3; the error carries no decoded bytes. -/
theorem invalid_length_exactness (s : List Nat) :
    (((stripWhitespace s).length - trailingBuginese (stripWhitespace s)) % 3 ≠ 0 →
      Decode s = .error (.invalidLength
        ((stripWhitespace s).length - trailingBuginese (stripWhitespace s)))) ∧
    (∀ n, Decode s = .error (.invalidLength n) →
      ((stripWhitespace s).length - trailingBuginese (stripWhitespace s)) % 3 ≠ 0 ∧
      n = (stripWhitespace s).length - trailingBuginese (stripWhitespace s)) := by
  have htle := trailingBuginese_le (stripWhitespace s)
  have hlt : ((stripWhitespace s).take
      ((stripWhitespace s).length - trailingBuginese (stripWhitespace s))).length =
      (stripWhitespace s).length - trailingBuginese (stripWhitespace s) := by
    simp only [List.length_take]
    omega
  constructor
  · intro hmod
    have hne : stripWhitespace s ≠ [] := by
      intro hh
      rw [hh] at hmod
      simp [trailingBuginese] at hmod
    rw [Decode_eq_core s hne]
    simp only [decodeCore, hlt]
    rw [if_pos hmod]
  · intro n h
    by_cases hne : stripWhitespace s = []
    · rw [Decode_of_strip_nil s hne] at h
      exact absurd h (by simp)
    · rw [Decode_eq_core s hne] at h
      simp only [decodeCore, hlt] at h
      split at h
      · next hcond =>
        simp only [Except.error.injEq, DecodeError.invalidLength.injEq] at h
        exact ⟨hcond, h.symm⟩
      · exfalso
        split at h
        · next e0 hdt =>
          rcases decodeTriplets_error_kinds _ _ _ hdt with ⟨r, p, rfl⟩ | ⟨v, p, rfl⟩ <;>
            simp at h
        · split at h
          · split at h
            · simp at h
            · simp at h
          · simp at h

/-- Witness for C6 at a concrete invalid-length input. -/
theorem invalid_length_exactness_witness :
    Decode [3585] = .error (.invalidLength 1) ∧
    (1 : Nat) % 3 ≠ 0 ∧ (1 : Nat) = 1 := by
  refine ⟨?_, ?_⟩
  · have h := (invalid_length_exactness [3585]).1 (by decide)
    exact h.trans rfl
  · have h := (invalid_length_exactness [3585]).2 1
      (((invalid_length_exactness [3585]).1 (by decide)).trans rfl)
    exact h

/-- C9: the decoder's `InvalidPadding` branch is unreachable — `Decode`
never returns that error; every Padding code point resolves to a nibble in
0–15; and when a padding pair is selected the emitted padding byte is
`(high_nibble << 4) | low_nibble`. -/
theorem invalid_padding_unreachable (s : List Nat) :
    Decode s ≠ .error .invalidPadding ∧
    (∀ r, isBuginese r = true → r - bugineseStart ≤ 15) ∧
    (∀ out, 2 ≤ (stripWhitespace s).length →
      isBuginese ((stripWhitespace s).getD ((stripWhitespace s).length - 1) 0) = true →
      isBuginese ((stripWhitespace s).getD ((stripWhitespace s).length - 2) 0) = true →
      decodePrimary ((stripWhitespace s).take ((stripWhitespace s).length - 2)) = .ok out →
      Decode s = .ok (out ++
        [((stripWhitespace s).getD ((stripWhitespace s).length - 2) 0 - bugineseStart)
            * 16 +
         ((stripWhitespace s).getD ((stripWhitespace s).length - 1) 0 - bugineseStart)])) := by
  refine ⟨?_, fun r hr => isBuginese_nibble_le r hr, ?_⟩
  · by_cases hne : stripWhitespace s = []
    · rw [Decode_of_strip_nil s hne]
      simp
    · rw [Decode_eq_core s hne]
      rcases trailingBuginese_cases (stripWhitespace s) with ht | ht
      · rw [decodeCore_nopad _ ht]
        intro h
        rcases decodePrimary_error_kinds _ _ h with h' | ⟨r, p, h'⟩ | ⟨v, p, h'⟩ <;>
          exact DecodeError.noConfusion h'
      · obtain ⟨h2, hb1, hb2⟩ := cond_of_trailingBuginese_two _ ht
        rw [decodeCore_pad _ h2 hb1 hb2]
        intro h
        split at h
        · next e0 hdp =>
          injection h with h'
          subst h'
          rcases decodePrimary_error_kinds _ _ hdp with h' | ⟨r, p, h'⟩ | ⟨v, p, h'⟩ <;>
            exact DecodeError.noConfusion h'
        · simp at h
  · intro out h2 hb1 hb2 hdp
    have hne : stripWhitespace s ≠ [] := by
      intro hh; rw [hh] at h2; simp at h2
    rw [Decode_eq_core s hne, decodeCore_pad _ h2 hb1 hb2, hdp]

/-- Witness for C9 at a concrete padding pair. -/
theorem invalid_padding_unreachable_witness :
    Decode [6657, 6658] = .ok [18] ∧ (6670 - bugineseStart ≤ 15) := by
  constructor
  · have h := (invalid_padding_unreachable [6657, 6658]).2.2 []
      (by decide) (by decide) (by decide) rfl
    exact h.trans rfl
  · exact (invalid_padding_unreachable []).2.1 6670 (by decide)

end Padthai
